import Mathlib

/-!
Verification of the storage-manager layer declared in
src/include/storage/smgr.h (PostgreSQL storage manager switch).

The repository provides only the public header: the struct
SMgrRelationData and the declarations of the smgr operations.  The
implementations (smgr.c, md.c) are not part of the source tree, so the
operational behaviour is modelled from the specification, definition by
definition; each such definition carries a doc comment starting with
the words Modelled from the spec.  The struct layout itself
(SMgrRelationData and its per-fork arrays of MAX_FORKNUM + 1 entries)
is taken directly from the header.
-/

namespace Smgr

/-- Modelled from the spec: the physical relation identifier
(tablespace, database, relation number), declared in
storage/relfilelocator.h which is not under src.  Immutable value type,
structural equality. -/
structure RelFileLocator where
  spcOid : Nat
  dbOid : Nat
  relNumber : Nat
deriving DecidableEq

/-- Modelled from the spec: the hashtable key of the handle cache, a
RelFileLocator together with a backend scope tag distinguishing shared
from session-local storage (relfilelocator.h is not under src). -/
structure RelFileLocatorBackend where
  locator : RelFileLocator
  backend : Nat
deriving DecidableEq

/-- Modelled from the spec: the largest fork number.  The fork
enumeration (main, free-space map, visibility map, init) lives in
common/relpath.h which is not under src; smgr.h sizes its per-fork
arrays as MAX_FORKNUM + 1. -/
def MAX_FORKNUM : Nat := 3

/-- Modelled from the spec: the sentinel block number meaning unknown,
declared in storage/block.h which is not under src.  Block numbers are
32-bit, and the all-ones value is reserved as invalid. -/
def InvalidBlockNumber : Nat := 4294967295

/-- The cached relation handle, following the struct SMgrRelationData
of smgr.h field by field: the lookup key, the optional owner
back-pointer (modelled as an owner-slot identifier, per the design
notes of the spec), the insertion-target hint, the per-fork cached
block counts, the storage-manager selector, and the md.c per-fork
arrays of open-segment counts and segment descriptors.  The three
per-fork arrays have exactly MAX_FORKNUM + 1 entries, recorded by the
length fields. -/
structure SMgrRelationData where
  smgr_rlocator : RelFileLocatorBackend
  smgr_owner : Option Nat
  smgr_targblock : Nat
  smgr_cached_nblocks : List Nat
  smgr_which : Nat
  md_num_open_segs : List Nat
  md_seg_fds : List (List Nat)
  cached_nblocks_len : smgr_cached_nblocks.length = MAX_FORKNUM + 1
  num_open_segs_len : md_num_open_segs.length = MAX_FORKNUM + 1
  seg_fds_len : md_seg_fds.length = MAX_FORKNUM + 1

/-- Modelled from the spec: the content of one disk block, viewed as a
function from byte offset to byte value.  The storage layer does not
interpret block contents. -/
def Page : Type := Nat → Nat

/-- Modelled from the spec: the all-zero block content produced by
zero-extension. -/
def zeroPage : Page := fun _ => 0

/-- Modelled from the spec: the error kinds of the error-handling
design (section 7): not-found, sequence violation on extend, device
error, invalid truncation target. -/
inductive SmgrError where
  | blockNotFound
  | seqViolation
  | deviceError
  | invalidTruncate
deriving DecidableEq

/-- Modelled from the spec: the state of one fork of one relation as
observable through the block interface: its length in blocks and the
content of each block below that length (md.c is not under src; the
segment files underneath are an implementation detail of where the
bytes live, not visible through the block-granularity interface). -/
structure ForkState where
  nblocks : Nat
  pages : Nat → Page

/-- Modelled from the spec: smgrnblocks, the authoritative number of
blocks of the fork. -/
def smgrnblocks (fork : ForkState) : Nat := fork.nblocks

/-- Modelled from the spec: smgrread, block-exact read of one in-range
block; reading past the end of the fork is the not-found error. -/
def smgrread (fork : ForkState) (blocknum : Nat) : Except SmgrError Page :=
  if blocknum < fork.nblocks then Except.ok (fork.pages blocknum)
  else Except.error SmgrError.blockNotFound

/-- Modelled from the spec: smgrwrite, block-exact overwrite of one
existing block.  Returns the updated fork and an optional error; on
error the returned fork is the input unchanged. -/
def smgrwrite (fork : ForkState) (blocknum : Nat) (page : Page) :
    ForkState × Option SmgrError :=
  if blocknum < fork.nblocks then
    ({ nblocks := fork.nblocks,
       pages := fun b => if b = blocknum then page else fork.pages b }, none)
  else (fork, some SmgrError.blockNotFound)

/-- Modelled from the spec: smgrextend writes one block at blocknum,
which must immediately follow the current size of the fork (extension
is sequential); any other block number is a sequence-violation logic
error and the fork is unchanged. -/
def smgrextend (fork : ForkState) (blocknum : Nat) (page : Page) :
    ForkState × Option SmgrError :=
  if blocknum = fork.nblocks then
    ({ nblocks := fork.nblocks + 1,
       pages := fun b => if b = blocknum then page else fork.pages b }, none)
  else (fork, some SmgrError.seqViolation)

/-- Modelled from the spec: smgrzeroextend grows the fork by nblocks
zero-filled blocks starting at blocknum in one all-or-nothing
operation: either every requested block becomes visible with zero
content, or the operation fails with the fork unchanged.  As with
extend, growth is sequential from the current end of the fork. -/
def smgrzeroextend (fork : ForkState) (blocknum : Nat) (n : Nat) :
    ForkState × Option SmgrError :=
  if blocknum = fork.nblocks then
    ({ nblocks := fork.nblocks + n,
       pages := fun b =>
         if fork.nblocks ≤ b ∧ b < fork.nblocks + n then zeroPage
         else fork.pages b }, none)
  else (fork, some SmgrError.seqViolation)

/-- Modelled from the spec: smgrtruncate shrinks the fork to the given
block count; a target beyond the current size is an error with the fork
unchanged. -/
def smgrtruncate (fork : ForkState) (n : Nat) : ForkState × Option SmgrError :=
  if n ≤ fork.nblocks then ({ nblocks := n, pages := fork.pages }, none)
  else (fork, some SmgrError.invalidTruncate)

/-- Modelled from the spec: the on-disk condition met when unlinking
the files of one handle: the files are present, the files are already
missing, or the operating system reports some other I/O error. -/
inductive FileCondition where
  | present
  | missing
  | ioError
deriving DecidableEq

/-- Modelled from the spec: the unlink of one handle's files.  A
missing file is tolerated both during redo (idempotent replay) and
outside redo (the goal state, file absent, is already achieved); any
other I/O error is reported for that handle. -/
def unlinkOne (cond : FileCondition) (isRedo : Bool) : Option SmgrError :=
  match cond, isRedo with
  | FileCondition.present, _ => none
  | FileCondition.missing, _ => none
  | FileCondition.ioError, _ => some SmgrError.deviceError

/-- Modelled from the spec: smgrdounlinkall attempts the unlink of
every handle of the batch and collects the per-handle outcomes;
per-item failures do not stop the batch. -/
def smgrdounlinkall (conds : List FileCondition) (isRedo : Bool) :
    List (Option SmgrError) :=
  conds.map (fun c => unlinkOne c isRedo)

/-- Modelled from the spec: the handle constructed by smgropen on a
cache miss: the given key, no owner, unknown insertion target, unknown
cached block counts for every fork, the disk storage manager selected,
and no open segments. -/
def freshHandle (k : RelFileLocatorBackend) : SMgrRelationData :=
  { smgr_rlocator := k
    smgr_owner := none
    smgr_targblock := InvalidBlockNumber
    smgr_cached_nblocks := List.replicate (MAX_FORKNUM + 1) InvalidBlockNumber
    smgr_which := 0
    md_num_open_segs := List.replicate (MAX_FORKNUM + 1) 0
    md_seg_fds := List.replicate (MAX_FORKNUM + 1) []
    cached_nblocks_len := by simp
    num_open_segs_len := by simp
    seg_fds_len := by simp }

/-- Modelled from the spec: the state of the process-wide handle cache
of smgr.c: the table of live handles (a list with pairwise distinct
keys, the uniqueness being the proved invariant rather than assumed),
the list of keys of currently-unowned handles, and the contents of the
external owner locations, indexed by owner-slot identifier as the
design notes of the spec prescribe. -/
structure SMgrCache where
  handles : List SMgrRelationData
  unowned : List RelFileLocatorBackend
  ownerSlots : Nat → Option RelFileLocatorBackend

/-- Modelled from the spec: the cache state right after smgrinit, with
no handles and every owner location empty. -/
def initCache : SMgrCache :=
  { handles := [], unowned := [], ownerSlots := fun _ => none }

/-- Modelled from the spec: the hashtable lookup of the handle for a
key. -/
def lookupHandle (st : SMgrCache) (k : RelFileLocatorBackend) :
    Option SMgrRelationData :=
  st.handles.find? (fun h => decide (h.smgr_rlocator = k))

/-- Modelled from the spec: smgropen returns the existing handle for
the key if present (performing no I/O and leaving the cache unchanged),
else constructs a fresh handle with unknown cached metadata, inserts
it, and adds it to the unowned list. -/
def smgropen (k : RelFileLocatorBackend) (st : SMgrCache) :
    SMgrRelationData × SMgrCache :=
  match lookupHandle st k with
  | some h => (h, st)
  | none =>
      (freshHandle k,
        { handles := freshHandle k :: st.handles
          unowned := k :: st.unowned
          ownerSlots := st.ownerSlots })

/-- Modelled from the spec: smgrsetowner records the owner slot as the
sole owner of the handle for the key, removes the handle from the
unowned list and makes the external location point at the handle; if
the handle already has a different owner the call is a logic error and
the cache is left as it was.  A missing handle also leaves the cache
unchanged. -/
def smgrsetowner (slot : Nat) (k : RelFileLocatorBackend) (st : SMgrCache) :
    SMgrCache :=
  match lookupHandle st k with
  | none => st
  | some h =>
      if h.smgr_owner = none ∨ h.smgr_owner = some slot then
        { handles := st.handles.map (fun g =>
            if g.smgr_rlocator = k then
              { g with smgr_owner := some slot } else g)
          unowned := st.unowned.filter (fun j => decide (¬ j = k))
          ownerSlots := fun s => if s = slot then some k else st.ownerSlots s }
      else st

/-- Modelled from the spec: smgrclearowner detaches ownership and
returns the handle to the unowned list only when the owner slot
currently points at the handle; otherwise it is a no-op guarding
against stale callers. -/
def smgrclearowner (slot : Nat) (k : RelFileLocatorBackend) (st : SMgrCache) :
    SMgrCache :=
  if st.ownerSlots slot = some k then
    { handles := st.handles.map (fun g =>
        if g.smgr_rlocator = k then { g with smgr_owner := none } else g)
      unowned := k :: st.unowned
      ownerSlots := fun s => if s = slot then none else st.ownerSlots s }
  else st

/-- Modelled from the spec: smgrclose removes the handle for the key
from the mapping and the unowned list and, if the handle is owned,
clears the external owner location to null. -/
def smgrclose (k : RelFileLocatorBackend) (st : SMgrCache) : SMgrCache :=
  match lookupHandle st k with
  | none => st
  | some h =>
      { handles := st.handles.filter (fun g => decide (¬ g.smgr_rlocator = k))
        unowned := st.unowned.filter (fun j => decide (¬ j = k))
        ownerSlots :=
          match h.smgr_owner with
          | some slot => fun s => if s = slot then none else st.ownerSlots s
          | none => st.ownerSlots }

/-- Modelled from the spec: smgrcloseall closes every cached handle,
clearing the owner location of each owned handle. -/
def smgrcloseall (st : SMgrCache) : SMgrCache :=
  { handles := []
    unowned := []
    ownerSlots := fun s =>
      if st.handles.any (fun h => decide (h.smgr_owner = some s)) then none
      else st.ownerSlots s }

/-- Modelled from the spec: the effect of smgrrelease on one handle:
the open segment descriptors are closed while the handle, its key, its
owner and its cached metadata stay alive in the cache. -/
def releaseHandle (g : SMgrRelationData) : SMgrRelationData :=
  { smgr_rlocator := g.smgr_rlocator
    smgr_owner := g.smgr_owner
    smgr_targblock := g.smgr_targblock
    smgr_cached_nblocks := g.smgr_cached_nblocks
    smgr_which := g.smgr_which
    md_num_open_segs := List.replicate (MAX_FORKNUM + 1) 0
    md_seg_fds := List.replicate (MAX_FORKNUM + 1) []
    cached_nblocks_len := g.cached_nblocks_len
    num_open_segs_len := by simp
    seg_fds_len := by simp }

/-- Modelled from the spec: smgrrelease closes the OS descriptors of
the handle for the key but keeps the handle cached. -/
def smgrrelease (k : RelFileLocatorBackend) (st : SMgrCache) : SMgrCache :=
  { st with handles := st.handles.map (fun g =>
      if g.smgr_rlocator = k then releaseHandle g else g) }

/-- Modelled from the spec: smgrreleaseall releases the descriptors of
every cached handle, as demanded by the release barrier. -/
def smgrreleaseall (st : SMgrCache) : SMgrCache :=
  { st with handles := st.handles.map releaseHandle }

/-- Modelled from the spec: the end-of-transaction sweep AtEOXact_SMgr
destroys every handle currently on the unowned list and leaves owned
handles untouched. -/
def AtEOXact_SMgr (st : SMgrCache) : SMgrCache :=
  { handles := st.handles.filter (fun h =>
      decide (¬ h.smgr_rlocator ∈ st.unowned))
    unowned := []
    ownerSlots := st.ownerSlots }

/-- Modelled from the spec: the operations a client can interleave on
the handle cache. -/
inductive SMgrOp where
  | opOpen (k : RelFileLocatorBackend)
  | opClose (k : RelFileLocatorBackend)
  | opSetOwner (slot : Nat) (k : RelFileLocatorBackend)
  | opClearOwner (slot : Nat) (k : RelFileLocatorBackend)
  | opRelease (k : RelFileLocatorBackend)
  | opReleaseAll
  | opCloseAll
  | opAtEOXact

/-- Modelled from the spec: the effect of one cache operation on the
cache state. -/
def applyOp (st : SMgrCache) : SMgrOp → SMgrCache
  | SMgrOp.opOpen k => (smgropen k st).2
  | SMgrOp.opClose k => smgrclose k st
  | SMgrOp.opSetOwner slot k => smgrsetowner slot k st
  | SMgrOp.opClearOwner slot k => smgrclearowner slot k st
  | SMgrOp.opRelease k => smgrrelease k st
  | SMgrOp.opReleaseAll => smgrreleaseall st
  | SMgrOp.opCloseAll => smgrcloseall st
  | SMgrOp.opAtEOXact => AtEOXact_SMgr st

/-- Modelled from the spec: running a sequence of cache operations. -/
def execOps (ops : List SMgrOp) (st : SMgrCache) : SMgrCache :=
  ops.foldl applyOp st

/-- The keys of the live handles of the cache, in table order. -/
def keysOf (st : SMgrCache) : List RelFileLocatorBackend :=
  st.handles.map (fun h => h.smgr_rlocator)

/-- The cache invariant: live handles have pairwise distinct keys; an
owner location pointing at a key is matched by a live handle for that
key whose owner field names that very slot; a handle is unowned exactly
when its key is on the unowned list; and every key on the unowned list
has a live handle. -/
structure CacheInv (st : SMgrCache) : Prop where
  nodupKeys : (keysOf st).Nodup
  slotsSound : ∀ s k, st.ownerSlots s = some k →
    ∃ h, h ∈ st.handles ∧ h.smgr_rlocator = k ∧ h.smgr_owner = some s
  ownerUnowned : ∀ h, h ∈ st.handles →
    (h.smgr_owner = none ↔ h.smgr_rlocator ∈ st.unowned)
  unownedLive : ∀ k, k ∈ st.unowned →
    ∃ h, h ∈ st.handles ∧ h.smgr_rlocator = k

/-- A sample key used by the concrete evaluations below. -/
def sampleKey : RelFileLocatorBackend :=
  { locator := { spcOid := 1663, dbOid := 5, relNumber := 16384 }, backend := 0 }

/-- A sample cache holding one freshly opened handle for sampleKey. -/
def sampleCache : SMgrCache := (smgropen sampleKey initCache).2

/-- A sample cache whose handle for sampleKey is owned by slot 5. -/
def ownedCache : SMgrCache := smgrsetowner 5 sampleKey sampleCache

/-- Claim C3: writing one block of content at an in-range block number
and immediately reading that block back returns exactly the written
content, for every fork state, in-range block number and page; the
write itself reports no error. -/
theorem smgrwrite_smgrread_roundtrip (fork : ForkState) (b : Nat) (p : Page)
    (hb : b < fork.nblocks) :
    smgrread (smgrwrite fork b p).1 b = Except.ok p ∧
      (smgrwrite fork b p).2 = none := by
  constructor
  · simp [smgrwrite, smgrread, hb]
  · simp [smgrwrite, hb]

/-- Witness for C3: a concrete fork of three blocks, writing the page
that maps every offset to 7 at block 1 and reading it back. -/
theorem smgrwrite_smgrread_roundtrip_witness :
    (1 < (ForkState.mk 3 (fun _ => zeroPage)).nblocks) ∧
      (smgrread (smgrwrite (ForkState.mk 3 (fun _ => zeroPage)) 1 (fun _ => 7)).1 1 =
          Except.ok (fun _ => 7) ∧
        (smgrwrite (ForkState.mk 3 (fun _ => zeroPage)) 1 (fun _ => 7)).2 = none) :=
  ⟨by decide,
    smgrwrite_smgrread_roundtrip (ForkState.mk 3 (fun _ => zeroPage)) 1 (fun _ => 7)
      (by decide)⟩

/-- Claim C4: zero-extension is all-or-nothing.  On success (no error
reported) the fork has exactly its prior size plus n blocks and each of
the n new blocks reads back as the all-zero content; on failure the
returned fork is the input unchanged, so no partially-extended state is
ever observable. -/
theorem smgrzeroextend_all_or_nothing (fork : ForkState) (b n : Nat) :
    ((smgrzeroextend fork b n).2 = none →
      smgrnblocks (smgrzeroextend fork b n).1 = smgrnblocks fork + n ∧
        ∀ i, i < n → smgrread (smgrzeroextend fork b n).1 (b + i) = Except.ok zeroPage) ∧
    (∀ e, (smgrzeroextend fork b n).2 = some e → (smgrzeroextend fork b n).1 = fork) := by
  by_cases hb : b = fork.nblocks
  · refine ⟨fun _ => ⟨by simp [smgrzeroextend, hb, smgrnblocks], ?_⟩, ?_⟩
    · intro i hi
      have hlt : b + i < fork.nblocks + n := by omega
      have hrange : fork.nblocks ≤ b + i ∧ b + i < fork.nblocks + n := by omega
      simp [smgrzeroextend, hb, smgrread, hlt, hrange, hi]
    · intro e he
      simp [smgrzeroextend, hb] at he
  · refine ⟨fun hnone => ?_, fun e _ => ?_⟩
    · simp [smgrzeroextend, hb] at hnone
    · simp [smgrzeroextend, hb]

/-- Witness for C4: zero-extending a concrete two-block fork by three
blocks succeeds, yields five blocks, and block 3 reads back as zero. -/
theorem smgrzeroextend_all_or_nothing_witness :
    (smgrzeroextend (ForkState.mk 2 (fun _ _ => 9)) 2 3).2 = none ∧
      smgrnblocks (smgrzeroextend (ForkState.mk 2 (fun _ _ => 9)) 2 3).1 =
          smgrnblocks (ForkState.mk 2 (fun _ _ => 9)) + 3 ∧
      smgrread (smgrzeroextend (ForkState.mk 2 (fun _ _ => 9)) 2 3).1 (2 + 1) =
          Except.ok zeroPage := by
  have hnone : (smgrzeroextend (ForkState.mk 2 (fun _ _ => 9)) 2 3).2 = none := by
    simp [smgrzeroextend]
  have h := (smgrzeroextend_all_or_nothing (ForkState.mk 2 (fun _ _ => 9)) 2 3).1 hnone
  exact ⟨hnone, h.1, h.2 1 (by decide)⟩

/-- Claim C5: truncating a fork to a new length no greater than its
current size succeeds, a subsequent nblocks returns exactly that
length, and repeating the identical truncation with nothing in between
is a no-op producing the very same fork and the same (error-free)
result. -/
theorem smgrtruncate_idempotent (fork : ForkState) (n : Nat)
    (hn : n ≤ fork.nblocks) :
    (smgrtruncate fork n).2 = none ∧
      smgrnblocks (smgrtruncate fork n).1 = n ∧
      smgrtruncate (smgrtruncate fork n).1 n = smgrtruncate fork n := by
  refine ⟨by simp [smgrtruncate, hn], by simp [smgrtruncate, hn, smgrnblocks], ?_⟩
  simp [smgrtruncate, hn]

/-- Witness for C5: truncating a concrete four-block fork to two blocks
and truncating the result to two blocks again. -/
theorem smgrtruncate_idempotent_witness :
    2 ≤ (ForkState.mk 4 (fun _ => zeroPage)).nblocks ∧
      ((smgrtruncate (ForkState.mk 4 (fun _ => zeroPage)) 2).2 = none ∧
        smgrnblocks (smgrtruncate (ForkState.mk 4 (fun _ => zeroPage)) 2).1 = 2 ∧
        smgrtruncate (smgrtruncate (ForkState.mk 4 (fun _ => zeroPage)) 2).1 2 =
          smgrtruncate (ForkState.mk 4 (fun _ => zeroPage)) 2) :=
  ⟨by decide,
    smgrtruncate_idempotent (ForkState.mk 4 (fun _ => zeroPage)) 2 (by decide)⟩

/-- Claim C8: extension is sequential.  A call of extend reports no
error exactly when the requested block number immediately follows the
current size of the fork, and every call with a block number past the
current end of the fork plus one fails with the sequence-violation
logic error, leaving the fork unchanged (no extension takes place). -/
theorem smgrextend_sequential (fork : ForkState) (b : Nat) (p : Page) :
    ((smgrextend fork b p).2 = none ↔ b = smgrnblocks fork) ∧
      (smgrnblocks fork < b →
        smgrextend fork b p = (fork, some SmgrError.seqViolation)) := by
  constructor
  · constructor
    · intro hnone
      by_cases hb : b = fork.nblocks
      · exact hb
      · simp [smgrextend, hb] at hnone
    · intro hb
      simp [smgrextend, hb, smgrnblocks] at hb ⊢
  · intro hlt
    have hb : ¬ b = fork.nblocks := by
      simp [smgrnblocks] at hlt; omega
    simp [smgrextend, hb]

/-- Witness for C8: extending a concrete two-block fork at block 5
(past end-of-fork plus one) fails with a sequence violation and leaves
the fork unchanged. -/
theorem smgrextend_sequential_witness :
    smgrnblocks (ForkState.mk 2 (fun _ => zeroPage)) < 5 ∧
      smgrextend (ForkState.mk 2 (fun _ => zeroPage)) 5 zeroPage =
        (ForkState.mk 2 (fun _ => zeroPage), some SmgrError.seqViolation) :=
  ⟨by decide,
    (smgrextend_sequential (ForkState.mk 2 (fun _ => zeroPage)) 5 zeroPage).2
      (by decide)⟩

/-- Claim C7: unlink during redo of a handle whose files were already
removed reports success, not an error; and the batch attempts every
handle regardless of the outcome of any other handle: the outcome list
decomposes position by position, so an error in the middle leaves the
outcomes of the remaining handles exactly as if processed alone, and
one outcome is reported per handle. -/
theorem smgrdounlinkall_redo_tolerant :
    (unlinkOne FileCondition.missing true = none) ∧
      (∀ pre c post isRedo,
        smgrdounlinkall (pre ++ c :: post) isRedo =
          smgrdounlinkall pre isRedo ++
            unlinkOne c isRedo :: smgrdounlinkall post isRedo) ∧
      (∀ conds isRedo, (smgrdounlinkall conds isRedo).length = conds.length) := by
  refine ⟨rfl, ?_, ?_⟩
  · intro pre c post isRedo
    simp [smgrdounlinkall]
  · intro conds isRedo
    simp [smgrdounlinkall]

/-- Claim C10: the per-fork state of a relation handle (cached block
counts, open-segment counts, segment descriptor arrays) has exactly
MAX_FORKNUM + 1 entries, so every access at a fork number in the closed
range 0..MAX_FORKNUM is in bounds, and every access at a fork number
outside that range is out of bounds (no such fork number is
accepted). -/
theorem smgr_fork_arrays_bounds (r : SMgrRelationData) (f : Nat) :
    (r.smgr_cached_nblocks.length = MAX_FORKNUM + 1 ∧
        r.md_num_open_segs.length = MAX_FORKNUM + 1 ∧
        r.md_seg_fds.length = MAX_FORKNUM + 1) ∧
      (f ≤ MAX_FORKNUM →
        (r.smgr_cached_nblocks.get? f).isSome ∧
          (r.md_num_open_segs.get? f).isSome ∧
          (r.md_seg_fds.get? f).isSome) ∧
      (MAX_FORKNUM < f →
        r.smgr_cached_nblocks.get? f = none ∧
          r.md_num_open_segs.get? f = none ∧
          r.md_seg_fds.get? f = none) := by
  refine ⟨⟨r.cached_nblocks_len, r.num_open_segs_len, r.seg_fds_len⟩, ?_, ?_⟩
  · intro hf
    refine ⟨?_, ?_, ?_⟩
    · rw [List.get?_eq_get (by rw [r.cached_nblocks_len]; omega)]; rfl
    · rw [List.get?_eq_get (by rw [r.num_open_segs_len]; omega)]; rfl
    · rw [List.get?_eq_get (by rw [r.seg_fds_len]; omega)]; rfl
  · intro hf
    refine ⟨?_, ?_, ?_⟩
    · exact List.get?_len_le (by rw [r.cached_nblocks_len]; omega)
    · exact List.get?_len_le (by rw [r.num_open_segs_len]; omega)
    · exact List.get?_len_le (by rw [r.seg_fds_len]; omega)

/-- A successful lookup returns a member of the table carrying the
looked-up key. -/
theorem lookupHandle_eq_some_elim {st : SMgrCache} {k : RelFileLocatorBackend}
    {h : SMgrRelationData} (hl : lookupHandle st k = some h) :
    h ∈ st.handles ∧ h.smgr_rlocator = k := by
  refine ⟨List.mem_of_find?_eq_some hl, ?_⟩
  have := List.find?_some hl
  simpa using this

/-- A failed lookup means no live handle carries the key. -/
theorem lookupHandle_eq_none_elim {st : SMgrCache} {k : RelFileLocatorBackend}
    (hl : lookupHandle st k = none) :
    ∀ h, h ∈ st.handles → ¬ h.smgr_rlocator = k := by
  intro h hm
  have := List.find?_eq_none.mp hl h hm
  simpa using this

/-- With pairwise distinct keys, two handles of the table carrying the
same key are the same handle. -/
theorem eq_of_mem_of_nodup_keys :
    ∀ {l : List SMgrRelationData}, ((l.map (fun h => h.smgr_rlocator)).Nodup) →
      ∀ {g h : SMgrRelationData}, g ∈ l → h ∈ l →
        g.smgr_rlocator = h.smgr_rlocator → g = h := by
  intro l
  induction l with
  | nil => intro _ g h hg; exact absurd hg (List.not_mem_nil g)
  | cons a t ih =>
      intro hnd g h hg hh hk
      rw [List.map_cons, List.nodup_cons] at hnd
      rcases List.mem_cons.mp hg with hg1 | hg2
      · rcases List.mem_cons.mp hh with hh1 | hh2
        · rw [hg1, hh1]
        · exfalso
          apply hnd.1
          have hak : a.smgr_rlocator = h.smgr_rlocator := by rw [← hg1]; exact hk
          rw [hak]
          exact List.mem_map.mpr ⟨h, hh2, rfl⟩
      · rcases List.mem_cons.mp hh with hh1 | hh2
        · exfalso
          apply hnd.1
          have hak : a.smgr_rlocator = g.smgr_rlocator := by rw [← hh1]; exact hk.symm
          rw [hak]
          exact List.mem_map.mpr ⟨g, hg2, rfl⟩
        · exact ih hnd.2 hg2 hh2 hk

/-- A key-preserving rewrite of the table leaves the key list as it
was. -/
theorem keys_map_preserved (l : List SMgrRelationData)
    (f : SMgrRelationData → SMgrRelationData)
    (hf : ∀ g, (f g).smgr_rlocator = g.smgr_rlocator) :
    (l.map f).map (fun h => h.smgr_rlocator) =
      l.map (fun h => h.smgr_rlocator) := by
  induction l with
  | nil => rfl
  | cons a t ih => simp [hf, ih]

/-- With pairwise distinct keys, at most one handle of the table
matches any given key. -/
theorem length_filter_key_le_one :
    ∀ (l : List SMgrRelationData) (k : RelFileLocatorBackend),
      ((l.map (fun h => h.smgr_rlocator)).Nodup) →
      (l.filter (fun h => decide (h.smgr_rlocator = k))).length ≤ 1 := by
  intro l
  induction l with
  | nil => intro k _; simp
  | cons a t ih =>
      intro k hnd
      rw [List.map_cons, List.nodup_cons] at hnd
      by_cases ha : a.smgr_rlocator = k
      · have ht : t.filter (fun h => decide (h.smgr_rlocator = k)) = [] := by
          rw [List.filter_eq_nil_iff]
          intro b hb
          simp only [decide_eq_true_eq]
          intro hbk
          exact hnd.1 (ha ▸ hbk ▸ List.mem_map.mpr ⟨b, hb, rfl⟩)
        simp [List.filter_cons, ha, ht]
      · simpa [List.filter_cons, ha] using ih k hnd.2

/-- smgropen preserves the cache invariant. -/
theorem cacheInv_smgropen (st : SMgrCache) (k : RelFileLocatorBackend)
    (hinv : CacheInv st) : CacheInv (smgropen k st).2 := by
  cases hl : lookupHandle st k with
  | some h => simpa [smgropen, hl] using hinv
  | none =>
      simp only [smgropen, hl]
      refine ⟨?_, ?_, ?_, ?_⟩
      · simp only [keysOf, List.map_cons, List.nodup_cons]
        refine ⟨?_, hinv.nodupKeys⟩
        intro hmem
        rcases List.mem_map.mp hmem with ⟨g, hg, hgkey⟩
        exact lookupHandle_eq_none_elim hl g hg (by simpa [freshHandle] using hgkey)
      · intro s k2 hs
        rcases hinv.slotsSound s k2 hs with ⟨h2, h2mem, h2key, h2own⟩
        exact ⟨h2, List.mem_cons_of_mem _ h2mem, h2key, h2own⟩
      · intro h2 h2mem
        rcases List.mem_cons.mp h2mem with h2eq | h2mem
        · subst h2eq
          simp [freshHandle]
        · have hiff := hinv.ownerUnowned h2 h2mem
          constructor
          · intro ho
            exact List.mem_cons_of_mem _ (hiff.mp ho)
          · intro hm
            rcases List.mem_cons.mp hm with heq | hm2
            · exact absurd heq (lookupHandle_eq_none_elim hl h2 h2mem)
            · exact hiff.mpr hm2
      · intro k2 hk2
        rcases List.mem_cons.mp hk2 with heq | hm
        · exact ⟨freshHandle k, List.mem_cons_self _ _, by simp [freshHandle, heq]⟩
        · rcases hinv.unownedLive k2 hm with ⟨h2, h2mem, h2key⟩
          exact ⟨h2, List.mem_cons_of_mem _ h2mem, h2key⟩

/-- smgrclose preserves the cache invariant. -/
theorem cacheInv_smgrclose (st : SMgrCache) (k : RelFileLocatorBackend)
    (hinv : CacheInv st) : CacheInv (smgrclose k st) := by
  cases hl : lookupHandle st k with
  | none => simpa [smgrclose, hl] using hinv
  | some h =>
      obtain ⟨hmem, hkey⟩ := lookupHandle_eq_some_elim hl
      have hnodup :
          ((st.handles.filter (fun g => decide (¬ g.smgr_rlocator = k))).map
            (fun h => h.smgr_rlocator)).Nodup :=
        List.Nodup.sublist ((List.filter_sublist _).map _) hinv.nodupKeys
      have hou : ∀ g, g ∈ st.handles.filter (fun g => decide (¬ g.smgr_rlocator = k)) →
          (g.smgr_owner = none ↔
            g.smgr_rlocator ∈ st.unowned.filter (fun j => decide (¬ j = k))) := by
        intro g hg
        have hgm := List.mem_filter.mp hg
        have hgne : ¬ g.smgr_rlocator = k := by simpa using hgm.2
        have hiff := hinv.ownerUnowned g hgm.1
        constructor
        · intro ho
          exact List.mem_filter.mpr ⟨hiff.mp ho, by simpa using hgne⟩
        · intro hm
          exact hiff.mpr (List.mem_filter.mp hm).1
      have hul : ∀ k2, k2 ∈ st.unowned.filter (fun j => decide (¬ j = k)) →
          ∃ h2, h2 ∈ st.handles.filter (fun g => decide (¬ g.smgr_rlocator = k)) ∧
            h2.smgr_rlocator = k2 := by
        intro k2 hk2
        have hm := List.mem_filter.mp hk2
        have hk2ne : ¬ k2 = k := by simpa using hm.2
        rcases hinv.unownedLive k2 hm.1 with ⟨h2, h2mem, h2key⟩
        refine ⟨h2, List.mem_filter.mpr ⟨h2mem, ?_⟩, h2key⟩
        simp only [decide_eq_true_eq]
        rw [h2key]
        exact hk2ne
      cases ho : h.smgr_owner with
      | some slot =>
          simp only [smgrclose, hl, ho]
          refine ⟨hnodup, ?_, hou, hul⟩
          intro s k2 hs
          simp only at hs
          by_cases hss : s = slot
          · rw [if_pos hss] at hs
            cases hs
          · rw [if_neg hss] at hs
            rcases hinv.slotsSound s k2 hs with ⟨h2, h2mem, h2key, h2own⟩
            have hne : ¬ h2.smgr_rlocator = k := by
              intro he
              have heq : h2 = h :=
                eq_of_mem_of_nodup_keys hinv.nodupKeys h2mem hmem (he.trans hkey.symm)
              rw [heq, ho] at h2own
              exact hss (Option.some.inj h2own).symm
            exact ⟨h2, List.mem_filter.mpr ⟨h2mem, by simpa using hne⟩, h2key, h2own⟩
      | none =>
          simp only [smgrclose, hl, ho]
          refine ⟨hnodup, ?_, hou, hul⟩
          intro s k2 hs
          simp only at hs
          rcases hinv.slotsSound s k2 hs with ⟨h2, h2mem, h2key, h2own⟩
          have hne : ¬ h2.smgr_rlocator = k := by
            intro he
            have heq : h2 = h :=
              eq_of_mem_of_nodup_keys hinv.nodupKeys h2mem hmem (he.trans hkey.symm)
            rw [heq, ho] at h2own
            cases h2own
          exact ⟨h2, List.mem_filter.mpr ⟨h2mem, by simpa using hne⟩, h2key, h2own⟩

/-- smgrsetowner preserves the cache invariant. -/
theorem cacheInv_smgrsetowner (st : SMgrCache) (slot : Nat)
    (k : RelFileLocatorBackend) (hinv : CacheInv st) :
    CacheInv (smgrsetowner slot k st) := by
  cases hl : lookupHandle st k with
  | none => simpa [smgrsetowner, hl] using hinv
  | some h =>
      obtain ⟨hmem, hkey⟩ := lookupHandle_eq_some_elim hl
      by_cases hc : h.smgr_owner = none ∨ h.smgr_owner = some slot
      · have hf : ∀ g : SMgrRelationData,
            ((if g.smgr_rlocator = k then
              { g with smgr_owner := some slot } else g) : SMgrRelationData).smgr_rlocator
              = g.smgr_rlocator := by
          intro g
          by_cases hg : g.smgr_rlocator = k <;> simp [hg]
        simp only [smgrsetowner, hl, if_pos hc]
        refine ⟨?_, ?_, ?_, ?_⟩
        · simp only [keysOf]
          rw [keys_map_preserved _ _ hf]
          exact hinv.nodupKeys
        · intro s k2 hs
          simp only at hs
          by_cases hss : s = slot
          · rw [if_pos hss] at hs
            have hk2 : k2 = k := (Option.some.inj hs).symm
            refine ⟨{ h with smgr_owner := some slot },
              List.mem_map.mpr ⟨h, hmem, by simp [hkey]⟩, ?_, ?_⟩
            · simpa using hkey.trans hk2.symm
            · simp [hss]
          · rw [if_neg hss] at hs
            rcases hinv.slotsSound s k2 hs with ⟨h2, h2mem, h2key, h2own⟩
            have hne : ¬ h2.smgr_rlocator = k := by
              intro he
              have heq : h2 = h :=
                eq_of_mem_of_nodup_keys hinv.nodupKeys h2mem hmem (he.trans hkey.symm)
              rw [heq] at h2own
              rcases hc with hc0 | hc0
              · rw [hc0] at h2own; cases h2own
              · rw [hc0] at h2own; exact hss (Option.some.inj h2own).symm
            exact ⟨h2, List.mem_map.mpr ⟨h2, h2mem, by simp [hne]⟩, h2key, h2own⟩
        · intro g hg
          rcases List.mem_map.mp hg with ⟨g0, hg0mem, hg0⟩
          by_cases hg0k : g0.smgr_rlocator = k
          · rw [← hg0, if_pos hg0k]
            constructor
            · intro ho
              exact absurd ho (by simp)
            · intro hm
              have hm2 := List.mem_filter.mp hm
              have hne : ¬ g0.smgr_rlocator = k := by simpa using hm2.2
              exact absurd hg0k hne
          · rw [← hg0, if_neg hg0k]
            have hiff := hinv.ownerUnowned g0 hg0mem
            constructor
            · intro ho
              exact List.mem_filter.mpr ⟨hiff.mp ho, by simpa using hg0k⟩
            · intro hm
              exact hiff.mpr (List.mem_filter.mp hm).1
        · intro k2 hk2
          have hm := List.mem_filter.mp hk2
          rcases hinv.unownedLive k2 hm.1 with ⟨h2, h2mem, h2key⟩
          refine ⟨(if h2.smgr_rlocator = k then
            { h2 with smgr_owner := some slot } else h2),
            List.mem_map.mpr ⟨h2, h2mem, rfl⟩, (hf h2).trans h2key⟩
      · simpa [smgrsetowner, hl, if_neg hc] using hinv

/-- smgrclearowner preserves the cache invariant. -/
theorem cacheInv_smgrclearowner (st : SMgrCache) (slot : Nat)
    (k : RelFileLocatorBackend) (hinv : CacheInv st) :
    CacheInv (smgrclearowner slot k st) := by
  by_cases hcond : st.ownerSlots slot = some k
  · obtain ⟨h0, h0mem, h0key, h0own⟩ := hinv.slotsSound slot k hcond
    have hf : ∀ g : SMgrRelationData,
        ((if g.smgr_rlocator = k then
          { g with smgr_owner := none } else g) : SMgrRelationData).smgr_rlocator
          = g.smgr_rlocator := by
      intro g
      by_cases hg : g.smgr_rlocator = k <;> simp [hg]
    simp only [smgrclearowner, if_pos hcond]
    refine ⟨?_, ?_, ?_, ?_⟩
    · simp only [keysOf]
      rw [keys_map_preserved _ _ hf]
      exact hinv.nodupKeys
    · intro s k2 hs
      simp only at hs
      by_cases hss : s = slot
      · rw [if_pos hss] at hs
        cases hs
      · rw [if_neg hss] at hs
        rcases hinv.slotsSound s k2 hs with ⟨h2, h2mem, h2key, h2own⟩
        have hne : ¬ h2.smgr_rlocator = k := by
          intro he
          have heq : h2 = h0 :=
            eq_of_mem_of_nodup_keys hinv.nodupKeys h2mem h0mem (he.trans h0key.symm)
          rw [heq, h0own] at h2own
          exact hss (Option.some.inj h2own).symm
        exact ⟨h2, List.mem_map.mpr ⟨h2, h2mem, by simp [hne]⟩, h2key, h2own⟩
    · intro g hg
      rcases List.mem_map.mp hg with ⟨g0, hg0mem, hg0⟩
      by_cases hg0k : g0.smgr_rlocator = k
      · rw [← hg0]
        simp only [hg0k, if_pos]
        simp [hg0k]
      · rw [← hg0]
        simp only [if_neg hg0k]
        have hiff := hinv.ownerUnowned g0 hg0mem
        constructor
        · intro ho
          exact List.mem_cons_of_mem _ (hiff.mp ho)
        · intro hm
          rcases List.mem_cons.mp hm with heq | hm2
          · exact absurd heq hg0k
          · exact hiff.mpr hm2
    · intro k2 hk2
      rcases List.mem_cons.mp hk2 with heq | hm
      · refine ⟨(if h0.smgr_rlocator = k then
          { h0 with smgr_owner := none } else h0),
          List.mem_map.mpr ⟨h0, h0mem, rfl⟩, (hf h0).trans (h0key.trans heq.symm)⟩
      · rcases hinv.unownedLive k2 hm with ⟨h2, h2mem, h2key⟩
        exact ⟨(if h2.smgr_rlocator = k then
          { h2 with smgr_owner := none } else h2),
          List.mem_map.mpr ⟨h2, h2mem, rfl⟩, (hf h2).trans h2key⟩
  · simpa [smgrclearowner, if_neg hcond] using hinv

/-- A rewrite of the table that preserves every handle's key and owner
field preserves the cache invariant. -/
theorem cacheInv_map_preserving (st : SMgrCache)
    (f : SMgrRelationData → SMgrRelationData)
    (hkey : ∀ g, (f g).smgr_rlocator = g.smgr_rlocator)
    (hown : ∀ g, (f g).smgr_owner = g.smgr_owner)
    (hinv : CacheInv st) :
    CacheInv { st with handles := st.handles.map f } := by
  refine ⟨?_, ?_, ?_, ?_⟩
  · simp only [keysOf]
    rw [keys_map_preserved _ _ hkey]
    exact hinv.nodupKeys
  · intro s k2 hs
    rcases hinv.slotsSound s k2 hs with ⟨h2, h2mem, h2key, h2own⟩
    exact ⟨f h2, List.mem_map.mpr ⟨h2, h2mem, rfl⟩,
      (hkey h2).trans h2key, (hown h2).trans h2own⟩
  · intro g hg
    rcases List.mem_map.mp hg with ⟨g0, hg0mem, hg0⟩
    rw [← hg0, hown g0, hkey g0]
    exact hinv.ownerUnowned g0 hg0mem
  · intro k2 hk2
    rcases hinv.unownedLive k2 hk2 with ⟨h2, h2mem, h2key⟩
    exact ⟨f h2, List.mem_map.mpr ⟨h2, h2mem, rfl⟩, (hkey h2).trans h2key⟩

/-- smgrrelease preserves the cache invariant. -/
theorem cacheInv_smgrrelease (st : SMgrCache) (k : RelFileLocatorBackend)
    (hinv : CacheInv st) : CacheInv (smgrrelease k st) := by
  refine cacheInv_map_preserving st _ ?_ ?_ hinv
  · intro g
    by_cases hg : g.smgr_rlocator = k <;> simp [hg, releaseHandle]
  · intro g
    by_cases hg : g.smgr_rlocator = k <;> simp [hg, releaseHandle]

/-- smgrreleaseall preserves the cache invariant. -/
theorem cacheInv_smgrreleaseall (st : SMgrCache) (hinv : CacheInv st) :
    CacheInv (smgrreleaseall st) := by
  refine cacheInv_map_preserving st releaseHandle ?_ ?_ hinv
  · intro g; rfl
  · intro g; rfl

/-- smgrcloseall preserves the cache invariant. -/
theorem cacheInv_smgrcloseall (st : SMgrCache) (hinv : CacheInv st) :
    CacheInv (smgrcloseall st) := by
  refine ⟨?_, ?_, ?_, ?_⟩
  · simp [keysOf, smgrcloseall]
  · intro s k2 hs
    simp only [smgrcloseall] at hs
    by_cases hb : st.handles.any (fun h => decide (h.smgr_owner = some s))
    · rw [if_pos hb] at hs
      cases hs
    · rw [if_neg hb] at hs
      rcases hinv.slotsSound s k2 hs with ⟨h2, h2mem, _, h2own⟩
      exact absurd (List.any_eq_true.mpr ⟨h2, h2mem, by simp [h2own]⟩) hb
  · intro g hg
    exact absurd hg (List.not_mem_nil g)
  · intro k2 hk2
    exact absurd hk2 (List.not_mem_nil k2)

/-- The end-of-transaction sweep preserves the cache invariant. -/
theorem cacheInv_AtEOXact (st : SMgrCache) (hinv : CacheInv st) :
    CacheInv (AtEOXact_SMgr st) := by
  refine ⟨?_, ?_, ?_, ?_⟩
  · simp only [AtEOXact_SMgr, keysOf]
    exact List.Nodup.sublist ((List.filter_sublist _).map _) hinv.nodupKeys
  · intro s k2 hs
    simp only [AtEOXact_SMgr] at hs
    rcases hinv.slotsSound s k2 hs with ⟨h2, h2mem, h2key, h2own⟩
    have hno : ¬ h2.smgr_owner = none := by rw [h2own]; simp
    have hnm : ¬ h2.smgr_rlocator ∈ st.unowned := fun hmem2 =>
      hno ((hinv.ownerUnowned h2 h2mem).mpr hmem2)
    exact ⟨h2, List.mem_filter.mpr ⟨h2mem, by simpa using hnm⟩, h2key, h2own⟩
  · intro g hg
    have hgm := List.mem_filter.mp hg
    have hnm : ¬ g.smgr_rlocator ∈ st.unowned := by simpa using hgm.2
    constructor
    · intro ho
      exact absurd ((hinv.ownerUnowned g hgm.1).mp ho) hnm
    · intro hm
      exact absurd hm (List.not_mem_nil _)
  · intro k2 hk2
    exact absurd hk2 (List.not_mem_nil k2)

/-- Every single cache operation preserves the cache invariant. -/
theorem cacheInv_applyOp (st : SMgrCache) (op : SMgrOp) (hinv : CacheInv st) :
    CacheInv (applyOp st op) := by
  cases op with
  | opOpen k => exact cacheInv_smgropen st k hinv
  | opClose k => exact cacheInv_smgrclose st k hinv
  | opSetOwner slot k => exact cacheInv_smgrsetowner st slot k hinv
  | opClearOwner slot k => exact cacheInv_smgrclearowner st slot k hinv
  | opRelease k => exact cacheInv_smgrrelease st k hinv
  | opReleaseAll => exact cacheInv_smgrreleaseall st hinv
  | opCloseAll => exact cacheInv_smgrcloseall st hinv
  | opAtEOXact => exact cacheInv_AtEOXact st hinv

/-- Every sequence of cache operations preserves the cache
invariant. -/
theorem cacheInv_execOps (ops : List SMgrOp) :
    ∀ st : SMgrCache, CacheInv st → CacheInv (execOps ops st) := by
  induction ops with
  | nil => intro st h; exact h
  | cons op t ih => intro st h; exact ih (applyOp st op) (cacheInv_applyOp st op h)

/-- The freshly initialized cache satisfies the invariant. -/
theorem cacheInv_initCache : CacheInv initCache := by
  refine ⟨?_, ?_, ?_, ?_⟩
  · simp [keysOf, initCache]
  · intro s k hs
    simp [initCache] at hs
  · intro h hm
    exact absurd hm (List.not_mem_nil h)
  · intro k hk
    exact absurd hk (List.not_mem_nil k)

/-- The sample cache satisfies the invariant. -/
theorem cacheInv_sampleCache : CacheInv sampleCache :=
  cacheInv_smgropen initCache sampleKey cacheInv_initCache

/-- Closing a key leaves no handle for it in the table. -/
theorem lookupHandle_smgrclose_self (st : SMgrCache) (k : RelFileLocatorBackend) :
    lookupHandle (smgrclose k st) k = none := by
  cases hl : lookupHandle st k with
  | none =>
      simp [smgrclose, hl]
  | some h =>
      simp only [smgrclose, hl]
      simp only [lookupHandle]
      apply List.find?_eq_none.mpr
      intro g hg
      have hne := (List.mem_filter.mp hg).2
      simpa using hne

/-- After a close of a key, no owner location references that key. -/
theorem smgrclose_no_dangling (st : SMgrCache) (k : RelFileLocatorBackend)
    (hinv : CacheInv st) :
    ∀ s, ¬ (smgrclose k st).ownerSlots s = some k := by
  intro s
  cases hl : lookupHandle st k with
  | none =>
      simp only [smgrclose, hl]
      intro hs
      rcases hinv.slotsSound s k hs with ⟨h2, h2mem, h2key, _⟩
      exact lookupHandle_eq_none_elim hl h2 h2mem h2key
  | some h =>
      obtain ⟨hmem, hkey⟩ := lookupHandle_eq_some_elim hl
      cases ho : h.smgr_owner with
      | some slot =>
          simp only [smgrclose, hl, ho]
          intro hs
          by_cases hss : s = slot
          · rw [if_pos hss] at hs
            cases hs
          · rw [if_neg hss] at hs
            rcases hinv.slotsSound s k hs with ⟨h2, h2mem, h2key, h2own⟩
            have heq : h2 = h :=
              eq_of_mem_of_nodup_keys hinv.nodupKeys h2mem hmem (h2key.trans hkey.symm)
            rw [heq, ho] at h2own
            exact hss (Option.some.inj h2own).symm
      | none =>
          simp only [smgrclose, hl, ho]
          intro hs
          rcases hinv.slotsSound s k hs with ⟨h2, h2mem, h2key, h2own⟩
          have heq : h2 = h :=
            eq_of_mem_of_nodup_keys hinv.nodupKeys h2mem hmem (h2key.trans hkey.symm)
          rw [heq, ho] at h2own
          cases h2own

/-- Claim C1: in every state reachable by a sequence of cache
operations at most one live handle exists per key; smgropen on a
present key returns that very handle and leaves the cache completely
unchanged (in particular it performs nothing besides the lookup); and
smgropen right after smgrclose of the same key yields a fresh unowned
handle whose cached metadata (per-fork block counts and insertion
target) is the unknown sentinel. -/
theorem smgropen_unique_live_handle :
    (∀ (ops : List SMgrOp) (k : RelFileLocatorBackend),
        ((execOps ops initCache).handles.filter
          (fun h => decide (h.smgr_rlocator = k))).length ≤ 1) ∧
      (∀ (st : SMgrCache) (k : RelFileLocatorBackend) (h : SMgrRelationData),
        lookupHandle st k = some h → smgropen k st = (h, st)) ∧
      (∀ (st : SMgrCache) (k : RelFileLocatorBackend),
        (smgropen k (smgrclose k st)).1.smgr_cached_nblocks =
            List.replicate (MAX_FORKNUM + 1) InvalidBlockNumber ∧
          (smgropen k (smgrclose k st)).1.smgr_targblock = InvalidBlockNumber ∧
          (smgropen k (smgrclose k st)).1.smgr_owner = none) := by
  refine ⟨?_, ?_, ?_⟩
  · intro ops k
    exact length_filter_key_le_one _ k
      (cacheInv_execOps ops initCache cacheInv_initCache).nodupKeys
  · intro st k h hl
    simp [smgropen, hl]
  · intro st k
    have hl : lookupHandle (smgrclose k st) k = none :=
      lookupHandle_smgrclose_self st k
    simp [smgropen, hl, freshHandle]

/-- Witness for C1: the sample cache holds the fresh handle for the
sample key, and smgropen returns it with the cache unchanged. -/
theorem smgropen_unique_live_handle_witness :
    lookupHandle sampleCache sampleKey = some (freshHandle sampleKey) ∧
      smgropen sampleKey sampleCache = (freshHandle sampleKey, sampleCache) := by
  have hl : lookupHandle sampleCache sampleKey = some (freshHandle sampleKey) := rfl
  exact ⟨hl, smgropen_unique_live_handle.2.1 sampleCache sampleKey
    (freshHandle sampleKey) hl⟩

/-- Claim C2: a handle registered to an owner slot by smgrsetowner and
later closed leaves no owner location referencing the destroyed handle,
whatever cache operations are interleaved between the registration and
the close; and in the direct registration-then-close pair the
registered slot itself is observably null after the close. -/
theorem smgrsetowner_smgrclose_clears_owner :
    (∀ (st : SMgrCache) (slot : Nat) (k : RelFileLocatorBackend)
        (ops : List SMgrOp) (s : Nat), CacheInv st →
        ¬ (smgrclose k (execOps ops (smgrsetowner slot k st))).ownerSlots s =
          some k) ∧
      (∀ (st : SMgrCache) (slot : Nat) (k : RelFileLocatorBackend)
        (h : SMgrRelationData), CacheInv st →
        lookupHandle st k = some h → h.smgr_owner = none →
        (smgrclose k (smgrsetowner slot k st)).ownerSlots slot = none) := by
  constructor
  · intro st slot k ops s hinv
    exact smgrclose_no_dangling _ k
      (cacheInv_execOps ops _ (cacheInv_smgrsetowner st slot k hinv)) s
  · intro st slot k h hinv hl ho
    have hc : h.smgr_owner = none ∨ h.smgr_owner = some slot := Or.inl ho
    obtain ⟨hmem, hkey⟩ := lookupHandle_eq_some_elim hl
    have hmm : ({ h with smgr_owner := some slot } : SMgrRelationData) ∈
        (smgrsetowner slot k st).handles := by
      simp only [smgrsetowner, hl, if_pos hc]
      exact List.mem_map.mpr ⟨h, hmem, by simp [hkey]⟩
    have hinv1 : CacheInv (smgrsetowner slot k st) :=
      cacheInv_smgrsetowner st slot k hinv
    cases hl1 : lookupHandle (smgrsetowner slot k st) k with
    | none =>
        exact absurd (by simpa using hkey)
          (lookupHandle_eq_none_elim hl1 _ hmm)
    | some h1 =>
        obtain ⟨h1mem, h1key⟩ := lookupHandle_eq_some_elim hl1
        have heq : h1 = { h with smgr_owner := some slot } :=
          eq_of_mem_of_nodup_keys hinv1.nodupKeys h1mem hmm
            (by simpa using h1key.trans hkey.symm)
        simp only [smgrclose, hl1, heq]
        simp

/-- Witness for C2: the empty initial cache for the interleaved form,
and the sample cache for the direct registration-then-close pair. -/
theorem smgrsetowner_smgrclose_clears_owner_witness :
    (CacheInv initCache ∧
      ¬ (smgrclose sampleKey
          (execOps [] (smgrsetowner 0 sampleKey initCache))).ownerSlots 0 =
        some sampleKey) ∧
      (CacheInv sampleCache ∧
        lookupHandle sampleCache sampleKey = some (freshHandle sampleKey) ∧
        (freshHandle sampleKey).smgr_owner = none ∧
        (smgrclose sampleKey (smgrsetowner 7 sampleKey sampleCache)).ownerSlots 7 =
          none) := by
  have hl : lookupHandle sampleCache sampleKey = some (freshHandle sampleKey) := rfl
  refine ⟨⟨cacheInv_initCache, ?_⟩, ⟨cacheInv_sampleCache, hl, rfl, ?_⟩⟩
  · exact smgrsetowner_smgrclose_clears_owner.1 initCache 0 sampleKey [] 0
      cacheInv_initCache
  · exact smgrsetowner_smgrclose_clears_owner.2 sampleCache 7 sampleKey
      (freshHandle sampleKey) cacheInv_sampleCache hl rfl

/-- Claim C6: under the cache invariant the end-of-transaction sweep
keeps a live handle exactly when it is owned (it destroys exactly the
handles on the unowned list), the swept state has an empty unowned
list, and running the sweep a second time with nothing in between
changes nothing at all. -/
theorem atEOXact_destroys_unowned (st : SMgrCache) (hinv : CacheInv st) :
    (∀ h, h ∈ st.handles →
        (h ∈ (AtEOXact_SMgr st).handles ↔ ¬ h.smgr_owner = none)) ∧
      (AtEOXact_SMgr st).unowned = [] ∧
      AtEOXact_SMgr (AtEOXact_SMgr st) = AtEOXact_SMgr st := by
  refine ⟨?_, rfl, ?_⟩
  · intro h hm
    constructor
    · intro hmem2
      simp only [AtEOXact_SMgr] at hmem2
      have hnm : ¬ h.smgr_rlocator ∈ st.unowned := by
        simpa using (List.mem_filter.mp hmem2).2
      intro ho
      exact hnm ((hinv.ownerUnowned h hm).mp ho)
    · intro ho
      have hnm : ¬ h.smgr_rlocator ∈ st.unowned := fun hmem2 =>
        ho ((hinv.ownerUnowned h hm).mpr hmem2)
      simp only [AtEOXact_SMgr]
      exact List.mem_filter.mpr ⟨hm, by simpa using hnm⟩
  · have hall : ∀ l : List SMgrRelationData,
        l.filter (fun h =>
          decide (¬ h.smgr_rlocator ∈ ([] : List RelFileLocatorBackend))) = l :=
      fun l => List.filter_eq_self.mpr (fun a _ => by simp)
    simp only [AtEOXact_SMgr]
    rw [hall]

/-- Witness for C6: the sweep applied to the sample cache, whose single
handle is unowned. -/
theorem atEOXact_destroys_unowned_witness :
    CacheInv sampleCache ∧
      ((∀ h, h ∈ sampleCache.handles →
          (h ∈ (AtEOXact_SMgr sampleCache).handles ↔ ¬ h.smgr_owner = none)) ∧
        (AtEOXact_SMgr sampleCache).unowned = [] ∧
        AtEOXact_SMgr (AtEOXact_SMgr sampleCache) = AtEOXact_SMgr sampleCache) :=
  ⟨cacheInv_sampleCache, atEOXact_destroys_unowned sampleCache cacheInv_sampleCache⟩

/-- Claim C9: when the owner slot currently points at the handle for
the key, smgrclearowner nulls the slot, detaches ownership of that
handle and puts the key back on the unowned list; when the slot does
not point at the handle the call is a no-op, the state (hence the
handle's owner field and the unowned list) being left exactly as it
was. -/
theorem smgrclearowner_only_matching :
    (∀ (st : SMgrCache) (slot : Nat) (k : RelFileLocatorBackend),
        st.ownerSlots slot = some k →
        ((smgrclearowner slot k st).ownerSlots slot = none ∧
          (∀ h, h ∈ (smgrclearowner slot k st).handles →
            h.smgr_rlocator = k → h.smgr_owner = none) ∧
          k ∈ (smgrclearowner slot k st).unowned)) ∧
      (∀ (st : SMgrCache) (slot : Nat) (k : RelFileLocatorBackend),
        ¬ st.ownerSlots slot = some k → smgrclearowner slot k st = st) := by
  constructor
  · intro st slot k hcond
    simp only [smgrclearowner, if_pos hcond]
    refine ⟨by simp, ?_, List.mem_cons_self _ _⟩
    intro h hm hk
    rcases List.mem_map.mp hm with ⟨g0, hg0mem, hg0⟩
    by_cases hg0k : g0.smgr_rlocator = k
    · rw [← hg0, if_pos hg0k]
    · exfalso
      apply hg0k
      rw [← hg0, if_neg hg0k] at hk
      exact hk
  · intro st slot k hcond
    simp [smgrclearowner, if_neg hcond]

/-- Witness for C9: clearing the matching registration of slot 5 in the
owned sample cache, and a non-matching clear on the unowned sample
cache. -/
theorem smgrclearowner_only_matching_witness :
    (ownedCache.ownerSlots 5 = some sampleKey ∧
      ((smgrclearowner 5 sampleKey ownedCache).ownerSlots 5 = none ∧
        (∀ h, h ∈ (smgrclearowner 5 sampleKey ownedCache).handles →
          h.smgr_rlocator = sampleKey → h.smgr_owner = none) ∧
        sampleKey ∈ (smgrclearowner 5 sampleKey ownedCache).unowned)) ∧
      (¬ sampleCache.ownerSlots 9 = some sampleKey ∧
        smgrclearowner 9 sampleKey sampleCache = sampleCache) := by
  have h1 : ownedCache.ownerSlots 5 = some sampleKey := rfl
  have h2 : ¬ sampleCache.ownerSlots 9 = some sampleKey := fun hx =>
    Option.noConfusion hx
  exact ⟨⟨h1, smgrclearowner_only_matching.1 ownedCache 5 sampleKey h1⟩,
    ⟨h2, smgrclearowner_only_matching.2 sampleCache 9 sampleKey h2⟩⟩

/-- Witness for C10: the fresh handle for the sample key, probed at the
in-range fork 2 and the out-of-range fork 9. -/
theorem smgr_fork_arrays_bounds_witness :
    (2 ≤ MAX_FORKNUM ∧
      (((freshHandle sampleKey).smgr_cached_nblocks.get? 2).isSome ∧
        ((freshHandle sampleKey).md_num_open_segs.get? 2).isSome ∧
        ((freshHandle sampleKey).md_seg_fds.get? 2).isSome)) ∧
      (MAX_FORKNUM < 9 ∧
        ((freshHandle sampleKey).smgr_cached_nblocks.get? 9 = none ∧
          (freshHandle sampleKey).md_num_open_segs.get? 9 = none ∧
          (freshHandle sampleKey).md_seg_fds.get? 9 = none)) :=
  ⟨⟨by decide, (smgr_fork_arrays_bounds (freshHandle sampleKey) 2).2.1 (by decide)⟩,
    ⟨by decide, (smgr_fork_arrays_bounds (freshHandle sampleKey) 9).2.2 (by decide)⟩⟩

end Smgr
